import Mathlib

/-!
Verification development for a small MANET ping/pong forwarding simulator.
The simulator has two variants sharing the same message/device model:
a baseline variant that picks a random candidate path, and a trusty variant
that picks the next hop weighted by per-peer trust scores.  The embedding
below models the message type, the network topology helpers (adjacency,
shortest-path length, bounded simple-path enumeration), and the mutually
recursive forward/receive state machine.  Randomness (the greed trial,
the destination choice and the next-hop draw) is resolved through explicit
oracle functions, and the mutual recursion is driven by a fuel parameter:
running out of fuel is reported as a distinguished error value, so the
termination of the real call chain can be stated as the unreachability of
that value.  Python exceptions (NetworkXNoPath, ZeroDivisionError) are
modelled with Except.
-/

namespace Manet

def ping : String := "ping"

def pong : String := "pong"

/-- Mirrors the Python Message class: src, dst, content and the relay
history; Message.__init__ starts the history empty. -/
structure Message where
  src : Nat
  dst : Nat
  content : String
  history : List Nat
deriving DecidableEq

/-- Message construction as done by Message.__init__: history starts empty. -/
def Message.make (src dst : Nat) (content : String) : Message :=
  { src := src, dst := dst, content := content, history := [] }

/-- Message.postmark: append the forwarding device's index to the history. -/
def Message.postmark (m : Message) (index : Nat) : Message :=
  { m with history := m.history ++ [index] }

/-- Message.has_cycles_in: does any node of the path already occur in the
message's history? -/
def Message.has_cycles_in (m : Message) (path : List Nat) : Bool :=
  path.any (fun index => m.history.contains index)

/-- The static topology: node list, undirected edge list, and each node's
greed parameter (the Python devices store greed individually; collecting
them in the network record is the only repackaging). -/
structure Network where
  nodes : List Nat
  edges : List (Nat × Nat)
  greed : Nat → ℚ

/-- NETWORK.has_edge on an undirected graph given by an edge list. -/
def Network.hasEdge (G : Network) (a b : Nat) : Bool :=
  G.edges.contains (a, b) || G.edges.contains (b, a)

/-- Neighbours of a node. -/
def Network.nbrs (G : Network) (a : Nat) : List Nat :=
  G.nodes.filter (fun b => G.hasEdge a b)

/-- Well-formedness of a topology: node identifiers are distinct and edges
reference only existing nodes. -/
def Network.WF (G : Network) : Prop :=
  G.nodes.Nodup ∧ ∀ e ∈ G.edges, e.1 ∈ G.nodes ∧ e.2 ∈ G.nodes

instance (G : Network) : Decidable G.WF :=
  inferInstanceAs (Decidable (G.nodes.Nodup ∧ ∀ e ∈ G.edges, e.1 ∈ G.nodes ∧ e.2 ∈ G.nodes))

/-- One step of breadth-first expansion: a node set together with all of
its neighbours. -/
def Network.expandReach (G : Network) (xs : List Nat) : List Nat :=
  (xs ++ xs.flatMap (fun a => G.nbrs a)).dedup

/-- Nodes reachable from a within d hops. -/
def Network.reachN (G : Network) (a : Nat) : Nat → List Nat
  | 0 => [a]
  | d + 1 => G.expandReach (G.reachN a d)

/-- nx.shortest_path_length: the least d with b reachable from a in d hops;
none models the NetworkXNoPath exception raised on a disconnected pair. -/
def Network.shortest_path_length (G : Network) (a b : Nat) : Option Nat :=
  (List.range (G.nodes.length + 1)).find? (fun d => (G.reachN a d).contains b)

/-- Depth-first enumeration of simple paths: vr is the path so far in
reverse (current node first); a path is emitted when the target is
reached, and each edge taken consumes one unit of the cutoff. -/
def Network.simplePathsAux (G : Network) (dst : Nat) : Nat → Nat → List Nat → List (List Nat)
  | 0, cur, vr => if cur = dst then [vr.reverse] else []
  | c + 1, cur, vr =>
    if cur = dst then [vr.reverse]
    else ((G.nbrs cur).filter (fun x => !(vr.contains x))).flatMap
      (fun x => G.simplePathsAux dst c x (x :: vr))

/-- nx.all_simple_paths with a length cutoff counted in edges. -/
def Network.all_simple_paths (G : Network) (a b cutoff : Nat) : List (List Nat) :=
  G.simplePathsAux b cutoff a [a]

/-- The four global counters, the per-device trust vectors (trusty variant;
never written after initialization) and a cursor into the random streams. -/
structure SimState where
  pingsSent : Nat
  pingsRcvd : Nat
  pongsRcvd : Nat
  dropCount : Nat
  trust : List (List ℚ)
  cursor : Nat
deriving DecidableEq

/-- Faults a run can surface: noPath models the uncaught NetworkXNoPath
exception of nx.shortest_path_length; fuelOut is the embedding's marker
for exhausting the recursion budget (never reached from valid states). -/
inductive NetErr where
  | noPath : NetErr
  | fuelOut : NetErr
deriving DecidableEq

/-- Which of the two mutually recursive device methods is executing. -/
inductive Mode where
  | fwdM : Mode
  | rcvM : Mode
deriving DecidableEq

/-- A next-hop selector: given the trust table, the forwarding device, the
random cursor and the filtered candidate paths, produce the next hop. -/
abbrev Sel := List (List ℚ) → Nat → Nat → List (List Nat) → Nat

/-- self.trust[t] lookups, with the device's trust row found by index. -/
def trustLookup (trust : List (List ℚ)) (self peer : Nat) : ℚ :=
  (trust.getD self []).getD peer 0

/-- Device.__init__ builds trust = [0 for _ in range(0, 26)] for each of
the 26 devices. -/
def trust_init : List (List ℚ) := List.replicate 26 (List.replicate 26 0)

/-- The unique list of second elements (immediate next hops) of the
candidate paths, as in Device.trusty_next_hop. -/
def uniqHops (options : List (List Nat)) : List Nat :=
  (options.map (fun p => p.getD 1 0)).dedup

/-- Device.trusty_next_hop with the weighted draw resolved by the oracle
hp: the draw returns some element of the unique next-hop list.  The
softmax weights of the draw are analysed separately by
trusty_next_hop_dist below. -/
def trusty_next_hop (hp : Nat → Nat) : Sel := fun _ _ cursor options =>
  let uniq := uniqHops options
  uniq.getD (hp cursor % uniq.length) 0

/-- The baseline variant: random.choice over the candidate paths (resolved
by the oracle hp), then the chosen path's second element. -/
def baseline_next_hop (hp : Nat → Nat) : Sel := fun _ _ cursor options =>
  (options.getD (hp cursor % options.length) []).getD 1 0

/-- The mutually recursive pair Device.forward_msg / Device.receive_msg,
merged into one fuel-indexed function so that recursion is structural.
u is the stream of random.random() values consumed by the greed trial,
sel resolves the next-hop choice.  The first component of a successful
result is forward_msg's return value (the chosen hop, or none for a
drop); receive_msg returns nothing in Python, so rcvM results carry
none there. -/
def run (G : Network) (u : Nat → ℚ) (sel : Sel) :
    Nat → Mode → Nat → Message → SimState →
    Except NetErr (Option Nat × Message × SimState)
  | 0, _, _, _, _ => .error .fuelOut
  | fuel + 1, Mode.fwdM, self, msg, s =>
    if G.hasEdge self msg.dst then
      match run G u sel fuel Mode.rcvM msg.dst (msg.postmark self) s with
      | .error e => .error e
      | .ok (_, m, s') => .ok (some msg.dst, m, s')
    else
      match G.shortest_path_length self msg.dst with
      | none => .error .noPath
      | some d =>
        let options := (G.all_simple_paths self msg.dst (3 + d)).filter
          (fun p => !(msg.has_cycles_in p))
        if options.isEmpty then
          .ok (none, msg, s)
        else
          let next := sel s.trust self s.cursor options
          match run G u sel fuel Mode.rcvM next (msg.postmark self)
              { s with cursor := s.cursor + 1 } with
          | .error e => .error e
          | .ok (_, m, s') => .ok (some next, m, s')
  | fuel + 1, Mode.rcvM, self, msg, s =>
    if self = msg.dst then
      if msg.content = ping then
        match run G u sel fuel Mode.fwdM self (Message.make self msg.src pong)
            { s with pingsRcvd := s.pingsRcvd + 1 } with
        | .error e => .error e
        | .ok (_, _, s') => .ok (none, msg, s')
      else if msg.content = pong then
        .ok (none, msg, { s with pongsRcvd := s.pongsRcvd + 1 })
      else
        .ok (none, msg, s)
    else if G.greed self ≤ u s.cursor then
      match run G u sel fuel Mode.fwdM self msg { s with cursor := s.cursor + 1 } with
      | .error e => .error e
      | .ok (_, m, s') => .ok (none, m, s')
    else
      .ok (none, msg, { s with cursor := s.cursor + 1, dropCount := s.dropCount + 1 })

/-- Device.forward_msg. -/
def forward_msg (G : Network) (u : Nat → ℚ) (sel : Sel) (fuel self : Nat)
    (msg : Message) (s : SimState) : Except NetErr (Option Nat × Message × SimState) :=
  run G u sel fuel Mode.fwdM self msg s

/-- Device.receive_msg. -/
def receive_msg (G : Network) (u : Nat → ℚ) (sel : Sel) (fuel self : Nat)
    (msg : Message) (s : SimState) : Except NetErr (Option Nat × Message × SimState) :=
  run G u sel fuel Mode.rcvM self msg s

/-- Device.produce_msg: pick a destination other than self (choice resolved
by the oracle dch), count the ping as sent, and drive the fresh message
through forward_msg. -/
def produce_msg (G : Network) (u : Nat → ℚ) (sel : Sel) (dch : Nat → Nat)
    (fuel self : Nat) (s : SimState) : Except NetErr SimState :=
  let destinations := G.nodes.filter (fun i => i ≠ self)
  let dst := destinations.getD (dch s.cursor % destinations.length) 0
  let s1 := { s with cursor := s.cursor + 1, pingsSent := s.pingsSent + 1 }
  match run G u sel fuel Mode.fwdM self (Message.make self dst ping) s1 with
  | .error e => .error e
  | .ok (_, _, s') => .ok s'

/-- Python division raising ZeroDivisionError on a zero denominator. -/
inductive RepErr where
  | zeroDivision : RepErr
deriving DecidableEq

def pyDiv (a b : ℚ) : Except RepErr ℚ :=
  if b = 0 then .error .zeroDivision else .ok (a / b)

/-- The end-of-run reporting computation of the trusty variant:
ping reliability, pong reliability and overall reliability, each scaled
to a percentage, with Python's division semantics (the first zero
denominator raises). -/
def report (s : SimState) : Except RepErr (ℚ × ℚ × ℚ) :=
  match pyDiv (s.pingsRcvd : ℚ) (s.pingsSent : ℚ) with
  | .error e => .error e
  | .ok pingRel =>
    match pyDiv (s.pongsRcvd : ℚ) (s.pingsRcvd : ℚ) with
    | .error e => .error e
    | .ok pongRel =>
      match pyDiv (s.dropCount : ℚ) ((s.pingsSent : ℚ) + (s.pingsRcvd : ℚ)) with
      | .error e => .error e
      | .ok dropFrac => .ok (pingRel * 100, pongRel * 100, (1 - dropFrac) * 100)

/-- The softmax weighting transform, exactly as the source computes it:
exp(ary) / sum(exp(ary)), elementwise. -/
noncomputable def softmax (ary : List ℝ) : List ℝ :=
  ary.map (fun x => Real.exp x / (ary.map Real.exp).sum)

/-- The probability distribution of Device.trusty_next_hop's weighted
draw: each unique next hop paired with its softmax weight computed from
the forwarding device's trust scores. -/
noncomputable def trusty_next_hop_dist (trust : List (List ℚ)) (self : Nat)
    (options : List (List Nat)) : List (Nat × ℝ) :=
  let uniq := uniqHops options
  uniq.zip (softmax (uniq.map (fun t => ((trustLookup trust self t : ℚ) : ℝ))))

/-- Modelled from the spec: a uniform random choice over the unique set of
immediate next hops of the candidate paths, for comparison with the
trust-weighted draw. -/
noncomputable def specUniformNextHopDist (options : List (List Nat)) : List (Nat × ℝ) :=
  let uniq := uniqHops options
  uniq.zip (List.replicate uniq.length ((uniq.length : ℝ))⁻¹)

instance {ε α : Type} [DecidableEq ε] [DecidableEq α] : DecidableEq (Except ε α) := fun a b =>
  match a, b with
  | .error e, .error f =>
    if h : e = f then isTrue (congrArg Except.error h)
    else isFalse (fun hc => h (Except.error.inj hc))
  | .error _, .ok _ => isFalse (fun hc => Except.noConfusion hc)
  | .ok _, .error _ => isFalse (fun hc => Except.noConfusion hc)
  | .ok x, .ok y =>
    if h : x = y then isTrue (congrArg Except.ok h)
    else isFalse (fun hc => h (Except.ok.inj hc))

/-- Concrete fixtures used by witnesses and counterexamples. -/
def u0 : Nat → ℚ := fun _ => 0

def hp0 : Nat → Nat := fun _ => 0

def s0 : SimState := ⟨0, 0, 0, 0, [], 0⟩

/-- A three-node path graph 0 - 1 - 2. -/
def G3 : Network := ⟨[0, 1, 2], [(0, 1), (1, 2)], fun _ => 0⟩

/-- A four-node path graph 0 - 1 - 2 - 3. -/
def G4 : Network := ⟨[0, 1, 2, 3], [(0, 1), (1, 2), (2, 3)], fun _ => 0⟩

/-- A disconnected graph: 0 - 1 - 2 with node 3 isolated. -/
def Gd : Network := ⟨[0, 1, 2, 3], [(0, 1), (1, 2)], fun _ => 0⟩

/-! ### Structural lemmas about the simple-path enumeration -/

theorem simplePathsAux_shape (G : Network) (dst : Nat) :
    ∀ (c cur : Nat) (vr p : List Nat), p ∈ G.simplePathsAux dst c cur vr →
      ∃ ext, p = vr.reverse ++ ext := by
  intro c
  induction c with
  | zero =>
    intro cur vr p hp
    simp only [Network.simplePathsAux] at hp
    split at hp
    · simp only [List.mem_singleton] at hp
      exact ⟨[], by simp [hp]⟩
    · simp at hp
  | succ c ih =>
    intro cur vr p hp
    simp only [Network.simplePathsAux] at hp
    split at hp
    · simp only [List.mem_singleton] at hp
      exact ⟨[], by simp [hp]⟩
    · simp only [List.mem_flatMap] at hp
      obtain ⟨x, _, hpx⟩ := hp
      obtain ⟨ext, hext⟩ := ih x (x :: vr) p hpx
      refine ⟨x :: ext, ?_⟩
      rw [hext, List.reverse_cons, List.append_assoc, List.singleton_append]

theorem all_simple_paths_shape (G : Network) (a b c : Nat) (hab : a ≠ b) (p : List Nat)
    (hp : p ∈ G.all_simple_paths a b c) :
    ∃ x ext, p = a :: x :: ext ∧ x ∈ G.nodes ∧ x ≠ a := by
  unfold Network.all_simple_paths at hp
  cases c with
  | zero =>
    simp only [Network.simplePathsAux, if_neg hab] at hp
    simp at hp
  | succ c =>
    simp only [Network.simplePathsAux, if_neg hab, List.mem_flatMap] at hp
    obtain ⟨x, hx, hpx⟩ := hp
    simp only [List.mem_filter, Network.nbrs] at hx
    obtain ⟨ext, hext⟩ := simplePathsAux_shape G b c x (x :: [a]) p hpx
    refine ⟨x, ext, ?_, ?_, ?_⟩
    · simpa using hext
    · exact hx.1.1
    · have := hx.2
      simp at this
      exact this

/-! ### Execution invariants -/

/-- Invariant at every reachable forward_msg call: the forwarding device is
a node that has not yet relayed this message, the history is duplicate
free and inside the topology, and the message is not addressed to its own
source or to the device about to forward it. -/
def FwdInv (G : Network) (self : Nat) (msg : Message) : Prop :=
  self ∈ G.nodes ∧ self ∉ msg.history ∧ msg.history.Nodup ∧
    (∀ x ∈ msg.history, x ∈ G.nodes) ∧ msg.src ≠ msg.dst ∧ self ≠ msg.dst

/-- Invariant at every reachable receive_msg call: like FwdInv, except the
receiver may be the destination, and only a non-destination receiver is
guaranteed to be absent from the history. -/
def RcvInv (G : Network) (self : Nat) (msg : Message) : Prop :=
  self ∈ G.nodes ∧ msg.history.Nodup ∧ (∀ x ∈ msg.history, x ∈ G.nodes) ∧
    msg.src ≠ msg.dst ∧ (self ≠ msg.dst → self ∉ msg.history)

theorem hasEdge_mem_right (G : Network) (hG : G.WF) (a b : Nat)
    (h : G.hasEdge a b = true) : b ∈ G.nodes := by
  unfold Network.hasEdge at h
  rcases Bool.or_eq_true_iff.mp h with h' | h'
  · have : (a, b) ∈ G.edges := by simpa using h'
    exact (hG.2 _ this).2
  · have : (b, a) ∈ G.edges := by simpa using h'
    exact (hG.2 _ this).1

theorem postmark_nodup {msg : Message} {i : Nat} (hn : msg.history.Nodup)
    (hi : i ∉ msg.history) : (msg.postmark i).history.Nodup := by
  simp only [Message.postmark]
  rw [List.nodup_append]
  refine ⟨hn, List.nodup_singleton i, ?_⟩
  intro a ha ha'
  rw [List.mem_singleton] at ha'
  subst ha'
  exact hi ha

/-- Direct-delivery dispatch preserves the invariant. -/
theorem invP1 {G : Network} {self : Nat} {msg : Message} (hG : G.WF)
    (hInv : FwdInv G self msg) (hadj : G.hasEdge self msg.dst = true) :
    RcvInv G msg.dst (msg.postmark self) := by
  obtain ⟨hself, hnew, hnd, hsub, hsd, hd⟩ := hInv
  refine ⟨hasEdge_mem_right G hG self msg.dst hadj, postmark_nodup hnd hnew, ?_, hsd, ?_⟩
  · intro x hx
    simp only [Message.postmark, List.mem_append, List.mem_singleton] at hx
    rcases hx with hx | rfl
    · exact hsub x hx
    · exact hself
  · intro hne
    exact absurd rfl hne

/-- A cycle-filtered candidate path leads to a next hop that restores the
invariant after the forwarding device postmarks itself. -/
theorem invP2 {G : Network} {self : Nat} {msg : Message} {c : Nat} {p : List Nat}
    (hInv : FwdInv G self msg)
    (hmem : p ∈ (G.all_simple_paths self msg.dst c).filter
      (fun q => !(msg.has_cycles_in q))) :
    RcvInv G (p.getD 1 0) (msg.postmark self) := by
  obtain ⟨hself, hnew, hnd, hsub, hsd, hd⟩ := hInv
  obtain ⟨hp, hcyc⟩ := List.mem_filter.mp hmem
  obtain ⟨x, ext, rfl, hxn, hxa⟩ := all_simple_paths_shape G self msg.dst c hd p hp
  have hfalse : msg.has_cycles_in (self :: x :: ext) = false := by
    simpa using hcyc
  have hxnh : x ∉ msg.history := by
    simp only [Message.has_cycles_in, List.any_eq_false] at hfalse
    have := hfalse x (by simp)
    simpa using this
  have : (self :: x :: ext).getD 1 0 = x := rfl
  rw [this]
  refine ⟨hxn, postmark_nodup hnd hnew, ?_, hsd, ?_⟩
  · intro y hy
    simp only [Message.postmark, List.mem_append, List.mem_singleton] at hy
    rcases hy with hy | rfl
    · exact hsub y hy
    · exact hself
  · intro _
    simp only [Message.postmark, List.mem_append, List.mem_singleton]
    rintro (hx | rfl)
    · exact hxnh hx
    · exact hxa rfl

/-- Replying with a pong restores the forward invariant for the fresh
message. -/
theorem invP3 {G : Network} {self : Nat} {msg : Message}
    (hInv : RcvInv G self msg) (hdst : self = msg.dst) :
    FwdInv G self (Message.make self msg.src pong) := by
  obtain ⟨hself, _, _, hsd, _⟩ := hInv
  have hns : self ≠ msg.src := fun h => hsd (by rw [← h]; exact hdst)
  exact ⟨hself, by simp [Message.make], by simp [Message.make], by simp [Message.make],
    hns, hns⟩

/-- A non-destination receiver that forwards satisfies the forward
invariant. -/
theorem invP4 {G : Network} {self : Nat} {msg : Message}
    (hInv : RcvInv G self msg) (hdst : self ≠ msg.dst) :
    FwdInv G self msg := by
  obtain ⟨hself, hnd, hsub, hsd, hnh⟩ := hInv
  exact ⟨hself, hnh hdst, hnd, hsub, hsd, hdst⟩

/-! ### Selector lemmas: both variants pick the second node of a candidate
path -/

@[simp] theorem make_src (a b : Nat) (c : String) : (Message.make a b c).src = a := rfl

@[simp] theorem make_dst (a b : Nat) (c : String) : (Message.make a b c).dst = b := rfl

@[simp] theorem make_content (a b : Nat) (c : String) : (Message.make a b c).content = c := rfl

@[simp] theorem make_history (a b : Nat) (c : String) : (Message.make a b c).history = [] := rfl

@[simp] theorem postmark_src (m : Message) (i : Nat) : (m.postmark i).src = m.src := rfl

@[simp] theorem postmark_dst (m : Message) (i : Nat) : (m.postmark i).dst = m.dst := rfl

@[simp] theorem postmark_content (m : Message) (i : Nat) :
    (m.postmark i).content = m.content := rfl

@[simp] theorem postmark_history (m : Message) (i : Nat) :
    (m.postmark i).history = m.history ++ [i] := rfl

theorem trusty_next_hop_mem (hp : Nat → Nat) (t : List (List ℚ)) (a k : Nat)
    (o : List (List Nat)) (ho : o ≠ []) :
    ∃ p ∈ o, trusty_next_hop hp t a k o = p.getD 1 0 := by
  have hmap : o.map (fun p => p.getD 1 0) ≠ [] := by simpa using ho
  have huq : uniqHops o ≠ [] := by
    unfold uniqHops
    intro hc
    exact hmap ((List.dedup_eq_nil _).mp hc)
  have hlen : 0 < (uniqHops o).length := List.length_pos.mpr huq
  have hidx : hp k % (uniqHops o).length < (uniqHops o).length := Nat.mod_lt _ hlen
  have hmem : (uniqHops o).getD (hp k % (uniqHops o).length) 0 ∈ uniqHops o := by
    rw [List.getD_eq_getElem?_getD, List.getElem?_eq_getElem hidx, Option.getD_some]
    exact List.getElem_mem hidx
  have hmm : (uniqHops o).getD (hp k % (uniqHops o).length) 0 ∈
      o.map (fun p => p.getD 1 0) := List.mem_dedup.mp hmem
  obtain ⟨p, hpo, hpe⟩ := List.mem_map.mp hmm
  exact ⟨p, hpo, hpe.symm⟩

theorem baseline_next_hop_mem (hp : Nat → Nat) (t : List (List ℚ)) (a k : Nat)
    (o : List (List Nat)) (ho : o ≠ []) :
    ∃ p ∈ o, baseline_next_hop hp t a k o = p.getD 1 0 := by
  have hlen : 0 < o.length := List.length_pos.mpr ho
  have hidx : hp k % o.length < o.length := Nat.mod_lt _ hlen
  refine ⟨o.getD (hp k % o.length) [], ?_, rfl⟩
  rw [List.getD_eq_getElem?_getD, List.getElem?_eq_getElem hidx, Option.getD_some]
  exact List.getElem_mem hidx

/-! ### Frame facts: what any run leaves unchanged -/

/-- Any successful run leaves src, dst, content and the trust table
unchanged; a forward that drops changes nothing at all, a forward that
dispatches extends the history with the device's own postmark, and a
receive only ever extends the history. -/
theorem run_frame (G : Network) (u : Nat → ℚ) (sel : Sel) :
    ∀ (fuel : Nat) (mode : Mode) (self : Nat) (msg : Message) (s : SimState)
      (h : Option Nat) (m : Message) (s' : SimState),
      run G u sel fuel mode self msg s = .ok (h, m, s') →
      m.src = msg.src ∧ m.dst = msg.dst ∧ m.content = msg.content ∧
      s'.trust = s.trust ∧
      (mode = Mode.fwdM → (h = none → m = msg ∧ s' = s) ∧
        ∀ nh, h = some nh → ∃ t, m.history = msg.history ++ self :: t) ∧
      (mode = Mode.rcvM → ∃ t, m.history = msg.history ++ t) := by
  intro fuel
  induction fuel with
  | zero =>
    intro mode self msg s h m s' hrun
    simp [run] at hrun
  | succ fuel ih =>
    intro mode self msg s h m s' hrun
    cases mode with
    | fwdM =>
      simp only [run] at hrun
      by_cases hadj : G.hasEdge self msg.dst = true
      · rw [if_pos hadj] at hrun
        rcases hrk : run G u sel fuel Mode.rcvM msg.dst (msg.postmark self) s with
          e | ⟨⟨h1, m1, s1⟩⟩
        · rw [hrk] at hrun; exact absurd hrun (by simp)
        · rw [hrk] at hrun
          simp only [Except.ok.injEq, Prod.mk.injEq] at hrun
          obtain ⟨rfl, rfl, rfl⟩ := hrun
          have IH := ih Mode.rcvM msg.dst (msg.postmark self) s h1 m1 s1 hrk
          obtain ⟨hsrc, hdst', hcont, htrust, _, hhist⟩ := IH
          obtain ⟨t, ht⟩ := hhist rfl
          refine ⟨hsrc, hdst', hcont, htrust, ?_, ?_⟩
          · intro _
            refine ⟨?_, ?_⟩
            · intro hnone; simp at hnone
            · intro nh _
              refine ⟨t, ?_⟩
              rw [ht, postmark_history, List.append_assoc, List.singleton_append]
          · intro hmode; simp at hmode
      · rw [if_neg hadj] at hrun
        rcases hspl : G.shortest_path_length self msg.dst with _ | d
        · rw [hspl] at hrun
          exact absurd hrun (by simp)
        · rw [hspl] at hrun
          simp only [] at hrun
          by_cases hopt : ((G.all_simple_paths self msg.dst (3 + d)).filter
              (fun p => !(msg.has_cycles_in p))).isEmpty = true
          · rw [if_pos hopt] at hrun
            simp only [Except.ok.injEq, Prod.mk.injEq] at hrun
            obtain ⟨rfl, rfl, rfl⟩ := hrun
            refine ⟨rfl, rfl, rfl, rfl, ?_, ?_⟩
            · intro _
              exact ⟨fun _ => ⟨rfl, rfl⟩, fun nh hnh => by simp at hnh⟩
            · intro hmode; simp at hmode
          · rw [if_neg hopt] at hrun
            rcases hrk : run G u sel fuel Mode.rcvM
                (sel s.trust self s.cursor ((G.all_simple_paths self msg.dst (3 + d)).filter
                  (fun p => !(msg.has_cycles_in p))))
                (msg.postmark self) { s with cursor := s.cursor + 1 } with
              e | ⟨⟨h1, m1, s1⟩⟩
            · rw [hrk] at hrun; exact absurd hrun (by simp)
            · rw [hrk] at hrun
              simp only [Except.ok.injEq, Prod.mk.injEq] at hrun
              obtain ⟨rfl, rfl, rfl⟩ := hrun
              have IH := ih Mode.rcvM _ (msg.postmark self) _ h1 m1 s1 hrk
              obtain ⟨hsrc, hdst', hcont, htrust, _, hhist⟩ := IH
              obtain ⟨t, ht⟩ := hhist rfl
              refine ⟨hsrc, hdst', hcont, htrust, ?_, ?_⟩
              · intro _
                refine ⟨?_, ?_⟩
                · intro hnone; simp at hnone
                · intro nh _
                  refine ⟨t, ?_⟩
                  rw [ht, postmark_history, List.append_assoc, List.singleton_append]
              · intro hmode; simp at hmode
    | rcvM =>
      simp only [run] at hrun
      by_cases hdst : self = msg.dst
      · rw [if_pos hdst] at hrun
        by_cases hping : msg.content = ping
        · rw [if_pos hping] at hrun
          rcases hrk : run G u sel fuel Mode.fwdM self (Message.make self msg.src pong)
              { s with pingsRcvd := s.pingsRcvd + 1 } with e | ⟨⟨h1, m1, s1⟩⟩
          · rw [hrk] at hrun; exact absurd hrun (by simp)
          · rw [hrk] at hrun
            simp only [Except.ok.injEq, Prod.mk.injEq] at hrun
            obtain ⟨rfl, rfl, rfl⟩ := hrun
            have IH := ih Mode.fwdM self (Message.make self msg.src pong) _ h1 m1 s1 hrk
            refine ⟨rfl, rfl, rfl, IH.2.2.2.1, ?_, ?_⟩
            · intro hmode; simp at hmode
            · intro _; exact ⟨[], by simp⟩
        · rw [if_neg hping] at hrun
          by_cases hpong : msg.content = pong
          · rw [if_pos hpong] at hrun
            simp only [Except.ok.injEq, Prod.mk.injEq] at hrun
            obtain ⟨rfl, rfl, rfl⟩ := hrun
            exact ⟨rfl, rfl, rfl, rfl, by intro hmode; simp at hmode,
              fun _ => ⟨[], by simp⟩⟩
          · rw [if_neg hpong] at hrun
            simp only [Except.ok.injEq, Prod.mk.injEq] at hrun
            obtain ⟨rfl, rfl, rfl⟩ := hrun
            exact ⟨rfl, rfl, rfl, rfl, by intro hmode; simp at hmode,
              fun _ => ⟨[], by simp⟩⟩
      · rw [if_neg hdst] at hrun
        by_cases hgreed : G.greed self ≤ u s.cursor
        · rw [if_pos hgreed] at hrun
          rcases hrk : run G u sel fuel Mode.fwdM self msg
              { s with cursor := s.cursor + 1 } with e | ⟨⟨h1, m1, s1⟩⟩
          · rw [hrk] at hrun; exact absurd hrun (by simp)
          · rw [hrk] at hrun
            simp only [Except.ok.injEq, Prod.mk.injEq] at hrun
            obtain ⟨rfl, rfl, rfl⟩ := hrun
            have IH := ih Mode.fwdM self msg _ h1 m1 s1 hrk
            obtain ⟨hsrc, hdst', hcont, htrust, hfwd, _⟩ := IH
            refine ⟨hsrc, hdst', hcont, htrust, ?_, ?_⟩
            · intro hmode; simp at hmode
            · intro _
              obtain ⟨hnone, hsome⟩ := hfwd rfl
              cases h1 with
              | none =>
                obtain ⟨rfl, _⟩ := hnone rfl
                exact ⟨[], by simp⟩
              | some nh =>
                obtain ⟨t, ht⟩ := hsome nh rfl
                exact ⟨self :: t, ht⟩
        · rw [if_neg hgreed] at hrun
          simp only [Except.ok.injEq, Prod.mk.injEq] at hrun
          obtain ⟨rfl, rfl, rfl⟩ := hrun
          exact ⟨rfl, rfl, rfl, rfl, by intro hmode; simp at hmode,
            fun _ => ⟨[], by simp⟩⟩

/-- A run of a non-ping message never changes the pings-received counter:
only the destination's ping branch touches it. -/
theorem run_pings (G : Network) (u : Nat → ℚ) (sel : Sel) :
    ∀ (fuel : Nat) (mode : Mode) (self : Nat) (msg : Message) (s : SimState)
      (h : Option Nat) (m : Message) (s' : SimState),
      msg.content ≠ ping →
      run G u sel fuel mode self msg s = .ok (h, m, s') →
      s'.pingsRcvd = s.pingsRcvd := by
  intro fuel
  induction fuel with
  | zero =>
    intro mode self msg s h m s' _ hrun
    simp [run] at hrun
  | succ fuel ih =>
    intro mode self msg s h m s' hnp hrun
    cases mode with
    | fwdM =>
      simp only [run] at hrun
      by_cases hadj : G.hasEdge self msg.dst = true
      · rw [if_pos hadj] at hrun
        rcases hrk : run G u sel fuel Mode.rcvM msg.dst (msg.postmark self) s with
          e | ⟨⟨h1, m1, s1⟩⟩
        · rw [hrk] at hrun; exact absurd hrun (by simp)
        · rw [hrk] at hrun
          simp only [Except.ok.injEq, Prod.mk.injEq] at hrun
          obtain ⟨rfl, rfl, rfl⟩ := hrun
          exact ih Mode.rcvM msg.dst (msg.postmark self) s h1 m1 s1 hnp hrk
      · rw [if_neg hadj] at hrun
        rcases hspl : G.shortest_path_length self msg.dst with _ | d
        · rw [hspl] at hrun
          exact absurd hrun (by simp)
        · rw [hspl] at hrun
          simp only [] at hrun
          by_cases hopt : ((G.all_simple_paths self msg.dst (3 + d)).filter
              (fun p => !(msg.has_cycles_in p))).isEmpty = true
          · rw [if_pos hopt] at hrun
            simp only [Except.ok.injEq, Prod.mk.injEq] at hrun
            obtain ⟨rfl, rfl, rfl⟩ := hrun
            rfl
          · rw [if_neg hopt] at hrun
            rcases hrk : run G u sel fuel Mode.rcvM
                (sel s.trust self s.cursor ((G.all_simple_paths self msg.dst (3 + d)).filter
                  (fun p => !(msg.has_cycles_in p))))
                (msg.postmark self) { s with cursor := s.cursor + 1 } with
              e | ⟨⟨h1, m1, s1⟩⟩
            · rw [hrk] at hrun; exact absurd hrun (by simp)
            · rw [hrk] at hrun
              simp only [Except.ok.injEq, Prod.mk.injEq] at hrun
              obtain ⟨rfl, rfl, rfl⟩ := hrun
              have hres := ih Mode.rcvM _ (msg.postmark self) _ h1 m1 s1 hnp hrk
              exact hres
    | rcvM =>
      simp only [run] at hrun
      by_cases hdst : self = msg.dst
      · rw [if_pos hdst] at hrun
        by_cases hping : msg.content = ping
        · exact absurd hping hnp
        · rw [if_neg hping] at hrun
          by_cases hpong : msg.content = pong
          · rw [if_pos hpong] at hrun
            simp only [Except.ok.injEq, Prod.mk.injEq] at hrun
            obtain ⟨rfl, rfl, rfl⟩ := hrun
            rfl
          · rw [if_neg hpong] at hrun
            simp only [Except.ok.injEq, Prod.mk.injEq] at hrun
            obtain ⟨rfl, rfl, rfl⟩ := hrun
            rfl
      · rw [if_neg hdst] at hrun
        by_cases hgreed : G.greed self ≤ u s.cursor
        · rw [if_pos hgreed] at hrun
          rcases hrk : run G u sel fuel Mode.fwdM self msg
              { s with cursor := s.cursor + 1 } with e | ⟨⟨h1, m1, s1⟩⟩
          · rw [hrk] at hrun; exact absurd hrun (by simp)
          · rw [hrk] at hrun
            simp only [Except.ok.injEq, Prod.mk.injEq] at hrun
            obtain ⟨rfl, rfl, rfl⟩ := hrun
            have hres := ih Mode.fwdM self msg _ h1 m1 s1 hnp hrk
            exact hres
        · rw [if_neg hgreed] at hrun
          simp only [Except.ok.injEq, Prod.mk.injEq] at hrun
          obtain ⟨rfl, rfl, rfl⟩ := hrun
          rfl

/-- When the receiver is the destination, the message itself is returned
untouched, and exactly the matching counter is incremented. -/
theorem receive_at_dst (G : Network) (u : Nat → ℚ) (sel : Sel) (fuel self : Nat)
    (msg : Message) (s : SimState) (hdst : self = msg.dst)
    (h : Option Nat) (m : Message) (s' : SimState)
    (hrun : run G u sel (fuel + 1) Mode.rcvM self msg s = .ok (h, m, s')) :
    m = msg ∧ (msg.content = ping → s'.pingsRcvd = s.pingsRcvd + 1) ∧
      (msg.content = pong → s'.pongsRcvd = s.pongsRcvd + 1) := by
  simp only [run] at hrun
  rw [if_pos hdst] at hrun
  by_cases hping : msg.content = ping
  · rw [if_pos hping] at hrun
    rcases hrk : run G u sel fuel Mode.fwdM self (Message.make self msg.src pong)
        { s with pingsRcvd := s.pingsRcvd + 1 } with e | ⟨⟨h1, m1, s1⟩⟩
    · rw [hrk] at hrun; exact absurd hrun (by simp)
    · rw [hrk] at hrun
      simp only [Except.ok.injEq, Prod.mk.injEq] at hrun
      obtain ⟨rfl, rfl, rfl⟩ := hrun
      have hnp2 : (Message.make self msg.src pong).content ≠ ping := by
        rw [make_content]; decide
      have hpres := run_pings G u sel fuel Mode.fwdM self (Message.make self msg.src pong)
        _ h1 m1 s1 hnp2 hrk
      refine ⟨rfl, fun _ => hpres, fun hpong => ?_⟩
      exact absurd (hping.symm.trans hpong) (by decide)
  · rw [if_neg hping] at hrun
    by_cases hpong : msg.content = pong
    · rw [if_pos hpong] at hrun
      simp only [Except.ok.injEq, Prod.mk.injEq] at hrun
      obtain ⟨rfl, rfl, rfl⟩ := hrun
      exact ⟨rfl, fun hp => absurd hp hping, fun _ => rfl⟩
    · rw [if_neg hpong] at hrun
      simp only [Except.ok.injEq, Prod.mk.injEq] at hrun
      obtain ⟨rfl, rfl, rfl⟩ := hrun
      exact ⟨rfl, fun hp => absurd hp hping, fun hp => absurd hp hpong⟩

/-- Any successful run starting from a call satisfying the matching
invariant ends with a duplicate-free history confined to the topology. -/
theorem run_nodup (G : Network) (u : Nat → ℚ) (sel : Sel)
    (hsel : ∀ (t : List (List ℚ)) (a k : Nat) (o : List (List Nat)), o ≠ [] →
      ∃ p ∈ o, sel t a k o = p.getD 1 0)
    (hG : G.WF) :
    ∀ (fuel : Nat) (mode : Mode) (self : Nat) (msg : Message) (s : SimState)
      (h : Option Nat) (m : Message) (s' : SimState),
      (mode = Mode.fwdM → FwdInv G self msg) →
      (mode = Mode.rcvM → RcvInv G self msg) →
      run G u sel fuel mode self msg s = .ok (h, m, s') →
      m.history.Nodup ∧ ∀ x ∈ m.history, x ∈ G.nodes := by
  intro fuel
  induction fuel with
  | zero =>
    intro mode self msg s h m s' _ _ hrun
    simp [run] at hrun
  | succ fuel ih =>
    intro mode self msg s h m s' hfw hrc hrun
    cases mode with
    | fwdM =>
      have hInv := hfw rfl
      simp only [run] at hrun
      by_cases hadj : G.hasEdge self msg.dst = true
      · rw [if_pos hadj] at hrun
        rcases hrk : run G u sel fuel Mode.rcvM msg.dst (msg.postmark self) s with
          e | ⟨⟨h1, m1, s1⟩⟩
        · rw [hrk] at hrun; exact absurd hrun (by simp)
        · rw [hrk] at hrun
          simp only [Except.ok.injEq, Prod.mk.injEq] at hrun
          obtain ⟨rfl, rfl, rfl⟩ := hrun
          exact ih Mode.rcvM msg.dst (msg.postmark self) s h1 m1 s1
            (by intro hm; simp at hm) (fun _ => invP1 hG hInv hadj) hrk
      · rw [if_neg hadj] at hrun
        rcases hspl : G.shortest_path_length self msg.dst with _ | d
        · rw [hspl] at hrun
          exact absurd hrun (by simp)
        · rw [hspl] at hrun
          simp only [] at hrun
          by_cases hopt : ((G.all_simple_paths self msg.dst (3 + d)).filter
              (fun p => !(msg.has_cycles_in p))).isEmpty = true
          · rw [if_pos hopt] at hrun
            simp only [Except.ok.injEq, Prod.mk.injEq] at hrun
            obtain ⟨rfl, rfl, rfl⟩ := hrun
            exact ⟨hInv.2.2.1, hInv.2.2.2.1⟩
          · rw [if_neg hopt] at hrun
            rcases hrk : run G u sel fuel Mode.rcvM
                (sel s.trust self s.cursor ((G.all_simple_paths self msg.dst (3 + d)).filter
                  (fun p => !(msg.has_cycles_in p))))
                (msg.postmark self) { s with cursor := s.cursor + 1 } with
              e | ⟨⟨h1, m1, s1⟩⟩
            · rw [hrk] at hrun; exact absurd hrun (by simp)
            · rw [hrk] at hrun
              simp only [Except.ok.injEq, Prod.mk.injEq] at hrun
              obtain ⟨rfl, rfl, rfl⟩ := hrun
              have ho : (G.all_simple_paths self msg.dst (3 + d)).filter
                  (fun p => !(msg.has_cycles_in p)) ≠ [] := by
                intro hnil
                exact hopt (by rw [hnil]; rfl)
              obtain ⟨p, hpo, hpe⟩ := hsel s.trust self s.cursor _ ho
              refine ih Mode.rcvM _ (msg.postmark self) _ h1 m1 s1
                (by intro hm; simp at hm) (fun _ => ?_) hrk
              rw [hpe]
              exact invP2 hInv hpo
    | rcvM =>
      have hInv := hrc rfl
      simp only [run] at hrun
      by_cases hdst : self = msg.dst
      · rw [if_pos hdst] at hrun
        by_cases hping : msg.content = ping
        · rw [if_pos hping] at hrun
          rcases hrk : run G u sel fuel Mode.fwdM self (Message.make self msg.src pong)
              { s with pingsRcvd := s.pingsRcvd + 1 } with e | ⟨⟨h1, m1, s1⟩⟩
          · rw [hrk] at hrun; exact absurd hrun (by simp)
          · rw [hrk] at hrun
            simp only [Except.ok.injEq, Prod.mk.injEq] at hrun
            obtain ⟨rfl, rfl, rfl⟩ := hrun
            exact ⟨hInv.2.1, hInv.2.2.1⟩
        · rw [if_neg hping] at hrun
          by_cases hpong : msg.content = pong
          · rw [if_pos hpong] at hrun
            simp only [Except.ok.injEq, Prod.mk.injEq] at hrun
            obtain ⟨rfl, rfl, rfl⟩ := hrun
            exact ⟨hInv.2.1, hInv.2.2.1⟩
          · rw [if_neg hpong] at hrun
            simp only [Except.ok.injEq, Prod.mk.injEq] at hrun
            obtain ⟨rfl, rfl, rfl⟩ := hrun
            exact ⟨hInv.2.1, hInv.2.2.1⟩
      · rw [if_neg hdst] at hrun
        by_cases hgreed : G.greed self ≤ u s.cursor
        · rw [if_pos hgreed] at hrun
          rcases hrk : run G u sel fuel Mode.fwdM self msg
              { s with cursor := s.cursor + 1 } with e | ⟨⟨h1, m1, s1⟩⟩
          · rw [hrk] at hrun; exact absurd hrun (by simp)
          · rw [hrk] at hrun
            simp only [Except.ok.injEq, Prod.mk.injEq] at hrun
            obtain ⟨rfl, rfl, rfl⟩ := hrun
            exact ih Mode.fwdM self msg _ h1 m1 s1
              (fun _ => invP4 hInv hdst) (by intro hm; simp at hm) hrk
        · rw [if_neg hgreed] at hrun
          simp only [Except.ok.injEq, Prod.mk.injEq] at hrun
          obtain ⟨rfl, rfl, rfl⟩ := hrun
          exact ⟨hInv.2.1, hInv.2.2.1⟩

/-! ### Termination of the forward/receive chain: an explicit fuel bound -/

/-- Extra recursion budget a message needs: a delivered ping spawns one
fresh pong journey. -/
def pingBudget (G : Network) (m : Message) : Nat :=
  if m.content = ping then 2 * G.nodes.length + 4 else 0

@[simp] theorem pingBudget_postmark (G : Network) (m : Message) (i : Nat) :
    pingBudget G (m.postmark i) = pingBudget G m := rfl

theorem hist_lt_of_FwdInv {G : Network} {self : Nat} {msg : Message}
    (hInv : FwdInv G self msg) : msg.history.length < G.nodes.length := by
  obtain ⟨hself, hnew, hnd, hsub, _, _⟩ := hInv
  have hsb : (self :: msg.history).Nodup := List.nodup_cons.mpr ⟨hnew, hnd⟩
  have hsub' : (self :: msg.history) ⊆ G.nodes := by
    intro x hx
    rcases List.mem_cons.mp hx with rfl | hx
    · exact hself
    · exact hsub x hx
  have hle := (hsb.subperm hsub').length_le
  simp only [List.length_cons] at hle
  omega

theorem hist_le_of_RcvInv {G : Network} {self : Nat} {msg : Message}
    (hInv : RcvInv G self msg) : msg.history.length ≤ G.nodes.length :=
  (hInv.2.1.subperm (fun x hx => hInv.2.2.1 x hx)).length_le

/-- With the stated fuel budget, a run from an invariant-respecting call
never exhausts its fuel: the forward/receive chain always terminates in a
delivery, a drop, or a NoPath fault within the bound. -/
theorem run_fuel (G : Network) (u : Nat → ℚ) (sel : Sel)
    (hsel : ∀ (t : List (List ℚ)) (a k : Nat) (o : List (List Nat)), o ≠ [] →
      ∃ p ∈ o, sel t a k o = p.getD 1 0)
    (hG : G.WF) :
    ∀ (fuel : Nat) (mode : Mode) (self : Nat) (msg : Message) (s : SimState),
      (mode = Mode.fwdM → FwdInv G self msg ∧
        2 * (G.nodes.length + 1 - msg.history.length) + pingBudget G msg ≤ fuel) →
      (mode = Mode.rcvM → RcvInv G self msg ∧
        2 * (G.nodes.length + 1 - msg.history.length) + 1 + pingBudget G msg ≤ fuel) →
      run G u sel fuel mode self msg s ≠ .error .fuelOut := by
  intro fuel
  induction fuel with
  | zero =>
    intro mode self msg s hf hr _
    cases mode with
    | fwdM =>
      obtain ⟨hInv, hb⟩ := hf rfl
      have hk := hist_lt_of_FwdInv hInv
      omega
    | rcvM =>
      obtain ⟨hInv, hb⟩ := hr rfl
      omega
  | succ fuel ih =>
    intro mode self msg s hf hr hcontra
    cases mode with
    | fwdM =>
      obtain ⟨hInv, hb⟩ := hf rfl
      have hk := hist_lt_of_FwdInv hInv
      simp only [run] at hcontra
      by_cases hadj : G.hasEdge self msg.dst = true
      · rw [if_pos hadj] at hcontra
        rcases hrk : run G u sel fuel Mode.rcvM msg.dst (msg.postmark self) s with
          e | ⟨⟨h1, m1, s1⟩⟩
        · rw [hrk] at hcontra
          have he : e = NetErr.fuelOut := by simpa using hcontra
          subst he
          refine ih Mode.rcvM msg.dst (msg.postmark self) s
            (by intro hm; simp at hm) (fun _ => ⟨invP1 hG hInv hadj, ?_⟩) hrk
          have hlen : (msg.postmark self).history.length = msg.history.length + 1 := by simp
          rw [pingBudget_postmark, hlen]
          omega
        · rw [hrk] at hcontra; simp at hcontra
      · rw [if_neg hadj] at hcontra
        rcases hspl : G.shortest_path_length self msg.dst with _ | d
        · rw [hspl] at hcontra; simp at hcontra
        · rw [hspl] at hcontra
          simp only [] at hcontra
          by_cases hopt : ((G.all_simple_paths self msg.dst (3 + d)).filter
              (fun p => !(msg.has_cycles_in p))).isEmpty = true
          · rw [if_pos hopt] at hcontra; simp at hcontra
          · rw [if_neg hopt] at hcontra
            rcases hrk : run G u sel fuel Mode.rcvM
                (sel s.trust self s.cursor ((G.all_simple_paths self msg.dst (3 + d)).filter
                  (fun p => !(msg.has_cycles_in p))))
                (msg.postmark self) { s with cursor := s.cursor + 1 } with
              e | ⟨⟨h1, m1, s1⟩⟩
            · rw [hrk] at hcontra
              have he : e = NetErr.fuelOut := by simpa using hcontra
              subst he
              have ho : (G.all_simple_paths self msg.dst (3 + d)).filter
                  (fun p => !(msg.has_cycles_in p)) ≠ [] := by
                intro hnil
                exact hopt (by rw [hnil]; rfl)
              obtain ⟨p, hpo, hpe⟩ := hsel s.trust self s.cursor _ ho
              refine ih Mode.rcvM _ (msg.postmark self) _
                (by intro hm; simp at hm) (fun _ => ⟨?_, ?_⟩) hrk
              · rw [hpe]
                exact invP2 hInv hpo
              · have hlen : (msg.postmark self).history.length = msg.history.length + 1 := by
                  simp
                rw [pingBudget_postmark, hlen]
                omega
            · rw [hrk] at hcontra; simp at hcontra
    | rcvM =>
      obtain ⟨hInv, hb⟩ := hr rfl
      have hk := hist_le_of_RcvInv hInv
      simp only [run] at hcontra
      by_cases hdst : self = msg.dst
      · rw [if_pos hdst] at hcontra
        by_cases hping : msg.content = ping
        · rw [if_pos hping] at hcontra
          rcases hrk : run G u sel fuel Mode.fwdM self (Message.make self msg.src pong)
              { s with pingsRcvd := s.pingsRcvd + 1 } with e | ⟨⟨h1, m1, s1⟩⟩
          · rw [hrk] at hcontra
            have he : e = NetErr.fuelOut := by simpa using hcontra
            subst he
            have hB : pingBudget G msg = 2 * G.nodes.length + 4 := by
              unfold pingBudget
              rw [if_pos hping]
            have hBp : pingBudget G (Message.make self msg.src pong) = 0 := by
              unfold pingBudget
              rw [if_neg (by rw [make_content]; decide)]
            refine ih Mode.fwdM self (Message.make self msg.src pong) _
              (fun _ => ⟨invP3 hInv hdst, ?_⟩) (by intro hm; simp at hm) hrk
            rw [hBp, make_history]
            simp only [List.length_nil]
            omega
          · rw [hrk] at hcontra; simp at hcontra
        · rw [if_neg hping] at hcontra
          by_cases hpong : msg.content = pong
          · rw [if_pos hpong] at hcontra; simp at hcontra
          · rw [if_neg hpong] at hcontra; simp at hcontra
      · rw [if_neg hdst] at hcontra
        by_cases hgreed : G.greed self ≤ u s.cursor
        · rw [if_pos hgreed] at hcontra
          rcases hrk : run G u sel fuel Mode.fwdM self msg
              { s with cursor := s.cursor + 1 } with e | ⟨⟨h1, m1, s1⟩⟩
          · rw [hrk] at hcontra
            have he : e = NetErr.fuelOut := by simpa using hcontra
            subst he
            exact ih Mode.fwdM self msg _
              (fun _ => ⟨invP4 hInv hdst, by omega⟩) (by intro hm; simp at hm) hrk
          · rw [hrk] at hcontra; simp at hcontra
        · rw [if_neg hgreed] at hcontra; simp at hcontra

/-! ### Analysis of the softmax weighting transform -/

theorem sum_map_div (l : List ℝ) (c : ℝ) : (l.map (fun x => x / c)).sum = l.sum / c := by
  induction l with
  | nil => simp
  | cons a t ih => simp [ih, add_div]

theorem exp_sum_pos (ary : List ℝ) (hne : ary ≠ []) : 0 < (ary.map Real.exp).sum := by
  apply List.sum_pos
  · intro x hx
    obtain ⟨y, _, rfl⟩ := List.mem_map.mp hx
    exact Real.exp_pos y
  · simpa using hne

theorem softmax_factor (ary : List ℝ) :
    softmax ary = (ary.map Real.exp).map (fun y => y / (ary.map Real.exp).sum) := by
  unfold softmax
  rw [List.map_map]
  rfl

theorem softmax_sum (ary : List ℝ) (hne : ary ≠ []) : (softmax ary).sum = 1 := by
  have hS := exp_sum_pos ary hne
  rw [softmax_factor, sum_map_div, div_self (ne_of_gt hS)]

theorem softmax_getD (ary : List ℝ) (i : Nat) (hi : i < ary.length) :
    (softmax ary).getD i 0 = Real.exp (ary.getD i 0) / (ary.map Real.exp).sum := by
  unfold softmax
  have hi2 : i < (ary.map (fun x => Real.exp x / (ary.map Real.exp).sum)).length := by
    simpa using hi
  simp only [List.getD_eq_getElem?_getD, List.getElem?_eq_getElem hi2,
    List.getElem?_eq_getElem hi, Option.getD_some, List.getElem_map]

theorem softmax_mem_pos (ary : List ℝ) (hne : ary ≠ []) :
    ∀ x ∈ softmax ary, 0 < x ∧ x ≤ 1 := by
  intro x hx
  unfold softmax at hx
  obtain ⟨y, hy, rfl⟩ := List.mem_map.mp hx
  have hS := exp_sum_pos ary hne
  constructor
  · exact div_pos (Real.exp_pos y) hS
  · rw [div_le_one hS]
    exact List.single_le_sum (fun z hz => le_of_lt (by
      obtain ⟨w, _, rfl⟩ := List.mem_map.mp hz
      exact Real.exp_pos w)) _ (List.mem_map_of_mem Real.exp hy)

theorem softmax_lt_one (ary : List ℝ) (h2 : 2 ≤ ary.length) :
    ∀ x ∈ softmax ary, x < 1 := by
  intro x hx
  have hne : ary ≠ [] := by
    intro h
    subst h
    simp at h2
  unfold softmax at hx
  obtain ⟨y, hy, rfl⟩ := List.mem_map.mp hx
  have hS := exp_sum_pos ary hne
  rw [div_lt_one hS]
  have hmem : Real.exp y ∈ ary.map Real.exp := List.mem_map_of_mem Real.exp hy
  have hperm := List.perm_cons_erase hmem
  have herase_len : ((ary.map Real.exp).erase (Real.exp y)).length = ary.length - 1 := by
    rw [List.length_erase_of_mem hmem, List.length_map]
  have hepos : 0 < ((ary.map Real.exp).erase (Real.exp y)).sum := by
    apply List.sum_pos
    · intro z hz
      have hz' := List.erase_subset _ _ hz
      obtain ⟨w, _, rfl⟩ := List.mem_map.mp hz'
      exact Real.exp_pos w
    · intro hnil
      rw [hnil] at herase_len
      simp only [List.length_nil] at herase_len
      omega
  rw [hperm.sum_eq, List.sum_cons]
  linarith

theorem softmax_mono (ary : List ℝ) (i j : Nat) (hi : i < ary.length) (hj : j < ary.length)
    (hlt : ary.getD j 0 < ary.getD i 0) :
    (softmax ary).getD j 0 ≤ (softmax ary).getD i 0 := by
  have hne : ary ≠ [] := by
    intro h
    subst h
    simp at hi
  have hS := exp_sum_pos ary hne
  rw [softmax_getD ary i hi, softmax_getD ary j hj]
  exact (div_le_div_iff_of_pos_right hS).mpr (Real.exp_le_exp.mpr hlt.le)

theorem sum_of_const (l : List ℝ) (c : ℝ) (h : ∀ x ∈ l, x = c) :
    l.sum = l.length * c := by
  induction l with
  | nil => simp
  | cons a t ih =>
    rw [List.sum_cons, h a (by simp), ih (fun x hx => h x (by simp [hx])), List.length_cons]
    push_cast
    ring

theorem softmax_const (ary : List ℝ) (c : ℝ) (hne : ary ≠ []) (hc : ∀ x ∈ ary, x = c) :
    softmax ary = List.replicate ary.length ((ary.length : ℝ))⁻¹ := by
  have hlen : 0 < ary.length := List.length_pos.mpr hne
  have hsum : (ary.map Real.exp).sum = ary.length * Real.exp c := by
    rw [sum_of_const (ary.map Real.exp) (Real.exp c) (by
      intro x hx
      obtain ⟨y, hy, rfl⟩ := List.mem_map.mp hx
      rw [hc y hy]), List.length_map]
  apply List.eq_replicate_iff.mpr
  constructor
  · simp [softmax]
  · intro b hb
    unfold softmax at hb
    obtain ⟨y, hy, rfl⟩ := List.mem_map.mp hb
    have he : Real.exp c ≠ 0 := (Real.exp_pos c).ne'
    rw [hc y hy, hsum, mul_comm, div_mul_eq_div_div, div_self he, one_div]

/-! ### The all-zero trust initialization and the uniform draw -/

theorem trustLookup_init (d p : Nat) : trustLookup trust_init d p = 0 := by
  unfold trustLookup trust_init
  rcases lt_or_ge d 26 with hd | hd
  · have h1 : (List.replicate 26 (List.replicate 26 (0 : ℚ))).getD d [] =
        List.replicate 26 (0 : ℚ) := by
      rw [List.getD_eq_getElem?_getD, List.getElem?_replicate, if_pos hd, Option.getD_some]
    rw [h1]
    rcases lt_or_ge p 26 with hp | hp
    · rw [List.getD_eq_getElem?_getD, List.getElem?_replicate, if_pos hp, Option.getD_some]
    · rw [List.getD_eq_getElem?_getD, List.getElem?_replicate, if_neg (by omega),
        Option.getD_none]
  · have h1 : (List.replicate 26 (List.replicate 26 (0 : ℚ))).getD d [] = [] := by
      rw [List.getD_eq_getElem?_getD, List.getElem?_replicate, if_neg (by omega),
        Option.getD_none]
    rw [h1]
    simp

theorem uniqHops_ne_nil (o : List (List Nat)) (ho : o ≠ []) : uniqHops o ≠ [] := by
  unfold uniqHops
  intro hc
  exact (by simpa using ho : o.map (fun p => p.getD 1 0) ≠ [])
    ((List.dedup_eq_nil _).mp hc)

/-- With all trust scores zero, the weighted draw's distribution is the
uniform distribution over the unique next hops. -/
theorem trusty_dist_uniform (trust : List (List ℚ)) (self : Nat)
    (options : List (List Nat)) (htz : ∀ d p, trustLookup trust d p = 0)
    (ho : options ≠ []) :
    trusty_next_hop_dist trust self options = specUniformNextHopDist options := by
  show (uniqHops options).zip (softmax ((uniqHops options).map
      (fun t => ((trustLookup trust self t : ℚ) : ℝ)))) =
    (uniqHops options).zip (List.replicate (uniqHops options).length
      ((((uniqHops options).length : ℝ))⁻¹))
  have huq := uniqHops_ne_nil options ho
  have hscores : (uniqHops options).map (fun t => ((trustLookup trust self t : ℚ) : ℝ))
      = List.replicate (uniqHops options).length (0 : ℝ) := by
    apply List.eq_replicate_iff.mpr
    refine ⟨by simp, ?_⟩
    intro b hb
    obtain ⟨t, _, rfl⟩ := List.mem_map.mp hb
    rw [htz self t]
    norm_num
  have hrep : List.replicate (uniqHops options).length (0 : ℝ) ≠ [] := by
    intro hc
    have := congrArg List.length hc
    simp only [List.length_replicate, List.length_nil] at this
    exact huq (List.length_eq_zero.mp this)
  rw [hscores, softmax_const _ 0 hrep (fun x hx => List.eq_of_mem_replicate hx),
    List.length_replicate]

/-! ### The claims -/

/-- C1: for every message relayed from an invariant-respecting starting
point (as a freshly produced message is: empty history, source inside the
topology, destination distinct from the source), the relay history of the
message returned by forward_msg contains no duplicate node identifier:
the cycle filter only admits candidate paths disjoint from the history,
and every forwarding device postmarks itself at most once per message. -/
theorem c1_history_nodup (G : Network) (u : Nat → ℚ) (hp : Nat → Nat)
    (fuel self : Nat) (msg : Message) (s : SimState) (hG : G.WF)
    (hself : self ∈ G.nodes) (hnew : self ∉ msg.history)
    (hnd : msg.history.Nodup) (hsub : ∀ x ∈ msg.history, x ∈ G.nodes)
    (hsd : msg.src ≠ msg.dst) (hd : self ≠ msg.dst)
    (h : Option Nat) (m : Message) (s' : SimState)
    (hrun : forward_msg G u (trusty_next_hop hp) fuel self msg s = .ok (h, m, s')) :
    m.history.Nodup :=
  (run_nodup G u (trusty_next_hop hp) (trusty_next_hop_mem hp) hG fuel Mode.fwdM self msg s
    h m s' (fun _ => ⟨hself, hnew, hnd, hsub, hsd, hd⟩) (by intro hm; simp at hm) hrun).1

theorem c1_history_nodup_witness : (Message.mk 0 2 ping [0, 1]).history.Nodup :=
  c1_history_nodup G3 u0 hp0 20 0 (Message.mk 0 2 ping []) s0 (by decide) (by decide)
    (by decide) (by decide) (by decide) (by decide) (by decide)
    (some 1) (Message.mk 0 2 ping [0, 1]) (SimState.mk 0 1 1 0 [] 4) (by decide)

/-- C2: when the forwarding device is adjacent to the destination,
forward_msg delivers in one hop whatever the selector, the trust scores
and the history are: the returned hop is the destination itself, the
delivered message is exactly the input with the device's own postmark
appended, and the destination's matching counter is incremented - path
enumeration, cycle filtering and trust-weighted selection are bypassed. -/
theorem c2_direct_delivery (G : Network) (u : Nat → ℚ) (sel : Sel) (fuel self : Nat)
    (msg : Message) (s : SimState) (hadj : G.hasEdge self msg.dst = true)
    (h : Option Nat) (m : Message) (s' : SimState)
    (hrun : forward_msg G u sel (fuel + 1) self msg s = .ok (h, m, s')) :
    h = some msg.dst ∧ m = msg.postmark self ∧
      (msg.content = ping → s'.pingsRcvd = s.pingsRcvd + 1) ∧
      (msg.content = pong → s'.pongsRcvd = s.pongsRcvd + 1) := by
  unfold forward_msg at hrun
  simp only [run] at hrun
  rw [if_pos hadj] at hrun
  cases fuel with
  | zero =>
    rcases hrk : run G u sel 0 Mode.rcvM msg.dst (msg.postmark self) s with e | ⟨⟨h1, m1, s1⟩⟩
    · rw [hrk] at hrun; exact absurd hrun (by simp)
    · simp [run] at hrk
  | succ fuel =>
    rcases hrk : run G u sel (fuel + 1) Mode.rcvM msg.dst (msg.postmark self) s with
      e | ⟨⟨h1, m1, s1⟩⟩
    · rw [hrk] at hrun; exact absurd hrun (by simp)
    · rw [hrk] at hrun
      simp only [Except.ok.injEq, Prod.mk.injEq] at hrun
      obtain ⟨rfl, rfl, rfl⟩ := hrun
      have hdd := receive_at_dst G u sel fuel msg.dst (msg.postmark self) s rfl h1 m1 s1 hrk
      obtain ⟨hm, hping', hpong'⟩ := hdd
      exact ⟨rfl, hm, fun hc => hping' hc, fun hc => hpong' hc⟩

theorem c2_direct_delivery_witness :
    G3.hasEdge 1 2 = true ∧
      Message.mk 0 2 ping [0, 1] = (Message.mk 0 2 ping [0]).postmark 1 ∧
      (SimState.mk 0 1 1 0 [] 2).pingsRcvd = s0.pingsRcvd + 1 := by
  refine ⟨by decide, ?_, ?_⟩
  · exact (c2_direct_delivery G3 u0 (trusty_next_hop hp0) 9 1 (Message.mk 0 2 ping [0]) s0
      (by decide) (some 2) (Message.mk 0 2 ping [0, 1]) (SimState.mk 0 1 1 0 [] 2)
      (by decide)).2.1
  · exact (c2_direct_delivery G3 u0 (trusty_next_hop hp0) 9 1 (Message.mk 0 2 ping [0]) s0
      (by decide) (some 2) (Message.mk 0 2 ping [0, 1]) (SimState.mk 0 1 1 0 [] 2)
      (by decide)).2.2.1 rfl

/-- C3: for every non-empty score vector, the softmax transform returns a
probability distribution: every entry is positive and at most one (exactly
one only for a singleton, strictly below one once there are two or more
candidates), the entries sum to one, a strictly higher score is never
assigned a smaller probability, and an all-equal score vector (such as the
all-zero initial trust) yields the uniform distribution. -/
theorem c3_softmax_distribution (ary : List ℝ) (hne : ary ≠ []) :
    (∀ x ∈ softmax ary, 0 < x ∧ x ≤ 1) ∧
    (softmax ary).sum = 1 ∧
    (2 ≤ ary.length → ∀ x ∈ softmax ary, x < 1) ∧
    (∀ i j, i < ary.length → j < ary.length → ary.getD j 0 < ary.getD i 0 →
      (softmax ary).getD j 0 ≤ (softmax ary).getD i 0) ∧
    (∀ c, (∀ x ∈ ary, x = c) →
      softmax ary = List.replicate ary.length (((ary.length : ℝ))⁻¹)) :=
  ⟨softmax_mem_pos ary hne, softmax_sum ary hne,
    fun h2 => softmax_lt_one ary h2,
    fun i j hi hj hlt => softmax_mono ary i j hi hj hlt,
    fun c hc => softmax_const ary c hne hc⟩

theorem c3_softmax_distribution_witness :
    ((0 : ℝ) :: [0] ≠ []) ∧ (softmax ((0 : ℝ) :: [0])).sum = 1 :=
  ⟨by simp, (c3_softmax_distribution ((0 : ℝ) :: [0]) (by simp)).2.1⟩

/-- C4: starting from the all-zero trust initialization, no operation of
the trusty variant (forwarding, receiving or producing) ever writes the
trust table, and consequently the trust-weighted draw's distribution is
the uniform distribution over the unique immediate next hops of the
filtered candidate paths. -/
theorem c4_trust_constant_uniform :
    (∀ (G : Network) (u : Nat → ℚ) (hp : Nat → Nat) (fuel self : Nat) (msg : Message)
      (s : SimState) (h : Option Nat) (m : Message) (s' : SimState),
      s.trust = trust_init →
      forward_msg G u (trusty_next_hop hp) fuel self msg s = .ok (h, m, s') →
      s'.trust = trust_init) ∧
    (∀ (G : Network) (u : Nat → ℚ) (hp : Nat → Nat) (dch : Nat → Nat) (fuel self : Nat)
      (s s' : SimState),
      s.trust = trust_init →
      produce_msg G u (trusty_next_hop hp) dch fuel self s = .ok s' →
      s'.trust = trust_init) ∧
    (∀ (self : Nat) (options : List (List Nat)), options ≠ [] →
      trusty_next_hop_dist trust_init self options = specUniformNextHopDist options) := by
  refine ⟨?_, ?_, ?_⟩
  · intro G u hp fuel self msg s h m s' hinit hrun
    rw [← hinit]
    exact (run_frame G u (trusty_next_hop hp) fuel Mode.fwdM self msg s h m s' hrun).2.2.2.1
  · intro G u hp dch fuel self s s' hinit hrun
    unfold produce_msg at hrun
    simp only [] at hrun
    rcases hrk : run G u (trusty_next_hop hp) fuel Mode.fwdM self
        (Message.make self ((G.nodes.filter (fun i => i ≠ self)).getD
          (dch s.cursor % (G.nodes.filter (fun i => i ≠ self)).length) 0) ping)
        { s with cursor := s.cursor + 1, pingsSent := s.pingsSent + 1 } with
      e | ⟨⟨h1, m1, s1⟩⟩
    · rw [hrk] at hrun; exact absurd hrun (by simp)
    · rw [hrk] at hrun
      simp only [Except.ok.injEq] at hrun
      subst hrun
      rw [← hinit]
      exact (run_frame G u (trusty_next_hop hp) fuel Mode.fwdM self _ _ h1 m1 _ hrk).2.2.2.1
  · intro self options ho
    exact trusty_dist_uniform trust_init self options trustLookup_init ho

theorem c4_trust_constant_uniform_witness :
    (SimState.mk 0 1 1 0 trust_init 4).trust = trust_init ∧
      trusty_next_hop_dist trust_init 0 [[0, 1, 2]] = specUniformNextHopDist [[0, 1, 2]] :=
  ⟨c4_trust_constant_uniform.1 G3 u0 hp0 20 0 (Message.mk 0 2 ping [])
      (SimState.mk 0 0 0 0 trust_init 0) (some 1) (Message.mk 0 2 ping [0, 1])
      (SimState.mk 0 1 1 0 trust_init 4) rfl (by decide),
    c4_trust_constant_uniform.2.2 0 [[0, 1, 2]] (by decide)⟩

/-- C5 (amended): when the cycle-filtered candidate set is empty,
forward_msg terminates the message with the drop signal - no fault is
raised and the hop is not retried - but it returns the message and the
simulation state completely unchanged: in particular the drop counter is
NOT incremented on this NoRoute path (DROP_COUNT only counts greed
drops), and the device does not postmark itself. -/
theorem c5_noroute_drop (G : Network) (u : Nat → ℚ) (sel : Sel) (fuel self : Nat)
    (msg : Message) (s : SimState) (d : Nat)
    (hadj : G.hasEdge self msg.dst = false)
    (hspl : G.shortest_path_length self msg.dst = some d)
    (hopt : (G.all_simple_paths self msg.dst (3 + d)).filter
      (fun p => !(msg.has_cycles_in p)) = []) :
    forward_msg G u sel (fuel + 1) self msg s = .ok (none, msg, s) := by
  unfold forward_msg
  simp only [run]
  rw [if_neg (by simp [hadj]), hspl]
  simp only []
  rw [if_pos (by rw [hopt]; rfl)]

theorem c5_noroute_drop_witness :
    forward_msg G4 u0 (baseline_next_hop hp0) 6 1 (Message.mk 0 3 ping [0, 2])
        (SimState.mk 7 0 0 0 [] 5) =
      .ok (none, Message.mk 0 3 ping [0, 2], SimState.mk 7 0 0 0 [] 5) :=
  c5_noroute_drop G4 u0 (baseline_next_hop hp0) 5 1 (Message.mk 0 3 ping [0, 2])
    (SimState.mk 7 0 0 0 [] 5) 2 (by decide) (by decide) (by decide)

/-- C5 counterexample: at device 1 of the path graph 0-1-2-3, a message for
node 3 whose history already contains node 2 has no cycle-free candidate
path; forward_msg returns the drop signal with the state unchanged - the
drop counter stays 0 - refuting the claim that the NoRoute drop increments
the drop counter. -/
theorem c5_counterexample :
    forward_msg G4 u0 (trusty_next_hop hp0) 3 1 (Message.mk 0 3 ping [2]) s0 =
        .ok (none, Message.mk 0 3 ping [2], s0) ∧
      s0.dropCount = 0 :=
  ⟨by decide, rfl⟩

/-- C6 (amended): when the shortest-path lookup finds no route - source and
destination in different connected components - forward_msg does not drop
the message: the NetworkXNoPath fault propagates uncaught to the caller. -/
theorem c6_disconnected_raises (G : Network) (u : Nat → ℚ) (sel : Sel) (fuel self : Nat)
    (msg : Message) (s : SimState)
    (hadj : G.hasEdge self msg.dst = false)
    (hspl : G.shortest_path_length self msg.dst = none) :
    forward_msg G u sel (fuel + 1) self msg s = .error .noPath := by
  unfold forward_msg
  simp only [run]
  rw [if_neg (by simp [hadj]), hspl]

theorem c6_disconnected_raises_witness :
    forward_msg Gd u0 (baseline_next_hop hp0) 8 1 (Message.mk 1 3 ping []) s0 =
      .error NetErr.noPath :=
  c6_disconnected_raises Gd u0 (baseline_next_hop hp0) 7 1 (Message.mk 1 3 ping []) s0
    (by decide) (by decide)

/-- C6 counterexample: in the disconnected graph Gd (node 3 isolated), a
ping from node 0 to node 3 makes forward_msg surface the NetworkXNoPath
fault; the result is not the drop outcome, refuting the claim that the
disconnected case is handled as a counted drop with no raised fault. -/
theorem c6_counterexample :
    forward_msg Gd u0 (trusty_next_hop hp0) 5 0 (Message.mk 0 3 ping []) s0 =
        .error NetErr.noPath ∧
      (Except.error NetErr.noPath :
          Except NetErr (Option Nat × Message × SimState)) ≠
        .ok (none, Message.mk 0 3 ping [], s0) :=
  ⟨by decide, by decide⟩

/-- C7 (amended): forward_msg stamps the forwarding device's identifier
exactly when it dispatches: on a successful hop the final history extends
the input history with the device's own postmark first, while on the drop
signal the message and the state are returned unchanged, with no postmark;
src, dst and content are never modified in either case. -/
theorem c7_postmark_frame (G : Network) (u : Nat → ℚ) (sel : Sel) (fuel self : Nat)
    (msg : Message) (s : SimState) (h : Option Nat) (m : Message) (s' : SimState)
    (hrun : forward_msg G u sel fuel self msg s = .ok (h, m, s')) :
    m.src = msg.src ∧ m.dst = msg.dst ∧ m.content = msg.content ∧
      (h = none → m = msg ∧ s' = s) ∧
      (∀ nh, h = some nh → ∃ t, m.history = msg.history ++ self :: t) := by
  have hfr := run_frame G u sel fuel Mode.fwdM self msg s h m s' hrun
  exact ⟨hfr.1, hfr.2.1, hfr.2.2.1, (hfr.2.2.2.2.1 rfl).1, (hfr.2.2.2.2.1 rfl).2⟩

theorem c7_postmark_frame_witness :
    (Message.mk 0 3 ping [0, 1, 2]).content = (Message.mk 0 3 ping []).content ∧
      (∃ t, (Message.mk 0 3 ping [0, 1, 2]).history =
        (Message.mk 0 3 ping []).history ++ 0 :: t) := by
  have hc := c7_postmark_frame G4 u0 (trusty_next_hop hp0) 30 0 (Message.mk 0 3 ping []) s0
    (some 1) (Message.mk 0 3 ping [0, 1, 2]) (SimState.mk 0 1 1 0 [] 8) (by decide)
  exact ⟨hc.2.2.1, hc.2.2.2.2 1 rfl⟩

/-- C7 counterexample: a NoRoute drop at device 1 returns the message with
its history unchanged - device 1's identifier is not appended - refuting
the claim that the forwarding device postmarks on every traversal
including the drop case. -/
theorem c7_counterexample :
    forward_msg G4 u0 (baseline_next_hop hp0) 4 1 (Message.mk 0 3 ping [0, 2])
        (SimState.mk 1 2 3 4 [] 9) =
      .ok (none, Message.mk 0 3 ping [0, 2], SimState.mk 1 2 3 4 [] 9) ∧
      (Message.mk 0 3 ping [0, 2]).history ≠
        (Message.mk 0 3 ping [0, 2]).history ++ [1] :=
  ⟨by decide, by decide⟩

/-- C8 (amended): the reporting computation performs unguarded divisions:
it raises ZeroDivisionError exactly when the pings-sent counter is zero or
the pings-received counter is zero, rather than reporting a defined
undefined/NaN ratio. -/
theorem c8_report_division (s : SimState) :
    report s = .error RepErr.zeroDivision ↔ s.pingsSent = 0 ∨ s.pingsRcvd = 0 := by
  have h1 : ((s.pingsSent : ℚ) = 0) ↔ s.pingsSent = 0 := Nat.cast_eq_zero
  have h2 : ((s.pingsRcvd : ℚ) = 0) ↔ s.pingsRcvd = 0 := Nat.cast_eq_zero
  have h3 : ((s.pingsSent : ℚ) + (s.pingsRcvd : ℚ) = 0) →
      s.pingsSent = 0 ∧ s.pingsRcvd = 0 := by
    intro hsum
    have hcast : ((s.pingsSent + s.pingsRcvd : ℕ) : ℚ) = 0 := by push_cast; linarith
    have := Nat.cast_eq_zero.mp hcast
    omega
  unfold report pyDiv
  by_cases hA : (s.pingsSent : ℚ) = 0
  · rw [if_pos hA]
    exact ⟨fun _ => Or.inl (h1.mp hA), fun _ => rfl⟩
  · rw [if_neg hA]
    by_cases hB : (s.pingsRcvd : ℚ) = 0
    · rw [if_pos hB]
      exact ⟨fun _ => Or.inr (h2.mp hB), fun _ => rfl⟩
    · rw [if_neg hB]
      have hC : ¬((s.pingsSent : ℚ) + (s.pingsRcvd : ℚ) = 0) := fun hc =>
        hA (h1.mpr (h3 hc).1)
      rw [if_neg hC]
      constructor
      · intro hcon
        exact absurd hcon (by simp)
      · rintro (ha | hb)
        · exact absurd (h1.mpr ha) hA
        · exact absurd (h2.mpr hb) hB

/-- C8 counterexample: with all counters zero (no pings sent), the
reporting computation raises ZeroDivisionError instead of producing a
defined NaN ratio, refuting the claim that every division over the
counters is explicitly guarded. -/
theorem c8_counterexample : report s0 = .error RepErr.zeroDivision := by decide

/-- C9: the mutually recursive forward/receive chain terminates for every
freshly produced ping, in both the trusty and the baseline variant: with
fuel 4n+6 available (n the number of nodes), a run never exhausts its
recursion budget, so the message's journey ends in delivery, a drop or a
NoPath fault after a bounded number of hops. -/
theorem c9_termination (G : Network) (u : Nat → ℚ) (hp : Nat → Nat) (fuel self dst : Nat)
    (s : SimState) (hG : G.WF) (hself : self ∈ G.nodes) (hsd : self ≠ dst)
    (hfuel : 4 * G.nodes.length + 6 ≤ fuel) :
    forward_msg G u (trusty_next_hop hp) fuel self (Message.make self dst ping) s ≠
        .error .fuelOut ∧
      forward_msg G u (baseline_next_hop hp) fuel self (Message.make self dst ping) s ≠
        .error .fuelOut := by
  unfold forward_msg
  have hB : pingBudget G (Message.make self dst ping) = 2 * G.nodes.length + 4 := by
    unfold pingBudget
    rw [if_pos (make_content self dst ping)]
  constructor
  · apply run_fuel G u (trusty_next_hop hp) (trusty_next_hop_mem hp) hG fuel Mode.fwdM
    · intro _
      refine ⟨⟨hself, by simp, by simp, by simp, hsd, hsd⟩, ?_⟩
      rw [hB, make_history]
      simp only [List.length_nil]
      omega
    · intro hm; simp at hm
  · apply run_fuel G u (baseline_next_hop hp) (baseline_next_hop_mem hp) hG fuel Mode.fwdM
    · intro _
      refine ⟨⟨hself, by simp, by simp, by simp, hsd, hsd⟩, ?_⟩
      rw [hB, make_history]
      simp only [List.length_nil]
      omega
    · intro hm; simp at hm

theorem c9_termination_witness :
    forward_msg G3 u0 (trusty_next_hop hp0) 18 0 (Message.make 0 2 ping) s0 ≠
      Except.error NetErr.fuelOut :=
  (c9_termination G3 u0 hp0 18 0 2 s0 (by decide) (by decide) (by decide) (by decide)).1

/-- C10: a destination device receiving a ping synthesizes a brand-new
pong from its own index back to the ping's original source with content
"pong" and an empty relay history - the ping's accumulated history is not
inherited, so no candidate path of the pong is cycle-filtered against it -
and immediately drives that reply through its own forward logic. -/
theorem c10_pong_fresh (G : Network) (u : Nat → ℚ) (sel : Sel) (fuel self : Nat)
    (msg : Message) (s : SimState) (hdst : self = msg.dst) (hping : msg.content = ping) :
    receive_msg G u sel (fuel + 1) self msg s =
      (match forward_msg G u sel fuel self (Message.make self msg.src pong)
          { s with pingsRcvd := s.pingsRcvd + 1 } with
        | .error e => .error e
        | .ok (_, _, s') => .ok (none, msg, s')) ∧
      (Message.make self msg.src pong).src = self ∧
      (Message.make self msg.src pong).dst = msg.src ∧
      (Message.make self msg.src pong).content = pong ∧
      (Message.make self msg.src pong).history = [] ∧
      ∀ p, (Message.make self msg.src pong).has_cycles_in p = false := by
  refine ⟨?_, rfl, rfl, rfl, rfl, ?_⟩
  · unfold receive_msg forward_msg
    simp only [run]
    rw [if_pos hdst, if_pos hping]
  · intro p
    simp [Message.has_cycles_in, Message.make]

theorem c10_pong_fresh_witness :
    (Message.make 2 0 pong).has_cycles_in [0, 1, 2] = false :=
  (c10_pong_fresh G3 u0 (trusty_next_hop hp0) 7 2 (Message.mk 0 2 ping [0, 1]) s0 rfl
    rfl).2.2.2.2.2 [0, 1, 2]

end Manet
